import Mathlib

/-!
Shallow embedding of the ACF / Yule-Walker / PACF core of the arima crate
(file src/acf.rs) and verification of its specified properties.

Modelling conventions:
* The generic floating scalar `T : Float` and the internal `f64` stage are
  both modelled by `ℚ`; the `From`/`Into` conversions between them are the
  identity, as the source round-trips values unchanged up to precision.
* Rust `Result<_, ArimaError>` becomes `Except ArimaError _`; a Rust panic
  (`unwrap()` on an `Err`, a failed `assert!`) is a distinct outcome of the
  embedding, `RustOutcome.panicked`, since it is not an `Err` return.
* The external LAPACK routine `dposv` is a collaborator, not code of this
  repository.  It is modelled by an abstract `Solver` that receives the
  symmetric matrix determined by the column-major lower triangle of the
  buffer the code fills (uplo = b'L') together with the right-hand side,
  and returns `some solution` on success (`info == 0`) or `none` on a
  non-zero status.  The solution overwrites `b` in place in the original,
  hence has the length of `b` there.
-/

namespace Arima

/-- Error type of the crate: a single kind, a failed numerical solve. -/
inductive ArimaError where
  | solveFailure
deriving DecidableEq

/-- Outcome of a Rust function that may return `Ok`, return `Err`, or panic
(via `unwrap()` on an `Err` or a failed `assert!`). -/
inductive RustOutcome (ε α : Type) where
  | ok : α → RustOutcome ε α
  | err : ε → RustOutcome ε α
  | panicked : RustOutcome ε α
deriving DecidableEq

/-- Abstract symmetric-positive-definite solver standing for `lapack::dposv`:
given the (full, symmetric) coefficient matrix as a list of rows and the
right-hand side, it returns `some` solution, or `none` for a non-zero
`info` status. -/
abbrev Solver := List (List ℚ) → List ℚ → Option (List ℚ)

/-- Clamping used for `max_lag` / `order` throughout the source:
`Some(v) => min(v, bound)`, `None => bound`, where the bound is
`x.len() - 1` resp. `rho.len() - 1` at each call site. -/
def clampIdx (bound : Nat) (v : Option Nat) : Nat :=
  match v with
  | some k => min k bound
  | none => bound

/-- Sample mean of the series: `x.iter().fold(0, +) / (x.len() as T)`. -/
def mean (x : List ℚ) : ℚ :=
  (x.foldl (fun s xi => s + xi) 0) / (x.length : ℚ)

/-- Value accumulated into `y[t]` by the inner loop of `acf`
(`for i in 0..n-t { y[t] += (x[i]-mean)*(x[i+t]-mean)/n }`), starting
from `0`: the biased lag-`t` autocovariance. -/
def covAt (x : List ℚ) (t : Nat) : ℚ :=
  (List.range (x.length - t)).foldl
    (fun yt i => yt + ((x.getD i 0 - mean x) * (x.getD (i + t) 0 - mean x)) / (x.length : ℚ))
    0

/-- Closed form of the same quantity before the division by `n`:
the sum of lagged products of mean-centered values. -/
def centeredSum (x : List ℚ) (t : Nat) : ℚ :=
  ((List.range (x.length - t)).map
    (fun i => (x.getD i 0 - mean x) * (x.getD (i + t) 0 - mean x))).sum

/-- Body of the `for t in 0..m` loop of `acf`: accumulate into `y[t]`,
then, in correlation mode and for `t > 0`, divide `y[t]` by `y[0]`. -/
def acfStep (x : List ℚ) (covariance : Bool) (y : List ℚ) (t : Nat) : List ℚ :=
  let yt :=
    (List.range (x.length - t)).foldl
      (fun yt i => yt + ((x.getD i 0 - mean x) * (x.getD (i + t) 0 - mean x)) / (x.length : ℚ))
      (y.getD t 0)
  if covariance = false ∧ 0 < t then y.set t (yt / y.getD 0 0) else y.set t yt

/-- The `for t in 0..m` loop of `acf`, starting from `vec![0.0; m]`. -/
def acfLoop (x : List ℚ) (covariance : Bool) (m : Nat) : List ℚ :=
  (List.range m).foldl (acfStep x covariance) (List.replicate m 0)

/-- Pure value computed by `acf` (the function always returns `Ok`):
clamp `max_lag` to `x.len() - 1`, run the loop, and in correlation mode
overwrite `y[0]` with `1.0` at the end. -/
def acfV (x : List ℚ) (max_lag : Option Nat) (covariance : Bool) : List ℚ :=
  let m := clampIdx (x.length - 1) max_lag + 1
  let y := acfLoop x covariance m
  if covariance = false then y.set 0 1 else y

/-- `acf` from src/acf.rs: the only exit is `Ok(y)`. -/
def acf (x : List ℚ) (max_lag : Option Nat) (covariance : Bool) :
    Except ArimaError (List ℚ) :=
  Except.ok (acfV x max_lag covariance)

/-- Instrumented inner accumulation of `acf` in which every index into `x`
is a checked access (`x[i]?`): `none` would signal an out-of-bounds index. -/
def covAtChk (x : List ℚ) (t : Nat) : Option ℚ :=
  (List.range (x.length - t)).foldlM
    (fun yt i =>
      match x[i]?, x[i + t]? with
      | some xi, some xit => some (yt + ((xi - mean x) * (xit - mean x)) / (x.length : ℚ))
      | _, _ => none)
    0

/-- Instrumented loop body of `acf` in which the correlation-mode division
`y[t] / y[0]` is guarded: a zero denominator takes the `none` branch.  The
source performs this division unguarded. -/
def acfStepG (x : List ℚ) (covariance : Bool) (y : List ℚ) (t : Nat) : Option (List ℚ) :=
  let yt :=
    (List.range (x.length - t)).foldl
      (fun yt i => yt + ((x.getD i 0 - mean x) * (x.getD (i + t) 0 - mean x)) / (x.length : ℚ))
      (y.getD t 0)
  if covariance = false ∧ 0 < t then
    if y.getD 0 0 = 0 then none else some (y.set t (yt / y.getD 0 0))
  else some (y.set t yt)

/-- Guarded-division instrumentation of `acfV`: identical control flow, but
the normalization division reports `none` on a zero denominator. -/
def acfGuard (x : List ℚ) (max_lag : Option Nat) (covariance : Bool) : Option (List ℚ) :=
  let m := clampIdx (x.length - 1) max_lag + 1
  ((List.range m).foldlM (acfStepG x covariance) (List.replicate m 0)).map
    (fun y => if covariance = false then y.set 0 1 else y)

/-- Row-major `n*n` buffer `mr` of `ar_coef_rho`: initialized to `1.0`
everywhere, then `mr[i*n+j] = rho[j-i]` for `0 ≤ i < j < n`.  Position `k`
holds row `k / n`, column `k % n`. -/
def mrBuf (rho : List ℚ) (n : Nat) : List ℚ :=
  (List.range (n * n)).map
    (fun k => if k / n < k % n then rho.getD (k % n - k / n) 0 else 1)

/-- Symmetric matrix that `dposv(b'L', n, ...)` reads from a buffer `a`:
entry `(i, j)` with `j ≤ i` is the column-major lower-triangle element
`a[j*n + i]`, and the strict upper triangle mirrors it. -/
def dposvL (a : List ℚ) (n : Nat) : List (List ℚ) :=
  (List.range n).map
    (fun i => (List.range n).map
      (fun j => if j ≤ i then a.getD (j * n + i) 0 else a.getD (i * n + j) 0))

/-- Right-hand side `b` of `ar_coef_rho`: `b[i] = rho[i+1]` for `i < n`. -/
def bVec (rho : List ℚ) (n : Nat) : List ℚ :=
  (List.range n).map (fun i => rho.getD (i + 1) 0)

/-- `ar_coef_rho` from src/acf.rs: clamp the order to `rho.len() - 1`,
build the system, hand it to the solver, and either propagate the failure
or copy the `n` solution entries back (`phi[i] = b[i]`). -/
def ar_coef_rho (s : Solver) (rho : List ℚ) (order : Option Nat) :
    Except ArimaError (List ℚ) :=
  let n := clampIdx (rho.length - 1) order
  match s (dposvL (mrBuf rho n) n) (bVec rho n) with
  | some sol => Except.ok ((List.range n).map (fun i => sol.getD i 0))
  | none => Except.error ArimaError.solveFailure

/-- `ar_coef` from src/acf.rs: compute correlations up to `order + 1`
(`None` stays `None`) and delegate to `ar_coef_rho`.  The `unwrap()` on the
`acf` result can never panic since `acf` always returns `Ok`. -/
def ar_coef (s : Solver) (x : List ℚ) (order : Option Nat) :
    Except ArimaError (List ℚ) :=
  let max_lag := match order with
    | some o => some (o + 1)
    | none => none
  let rho := acfV x max_lag false
  ar_coef_rho s rho order

/-- Spec-side composition of the two entry points, following the words of
the specification: first compute rho via `acf` on the series with the
corresponding `max_lag` in correlation mode, then call `ar_coef_rho` on it
with the same order. -/
def ar_coef_twoStep (s : Solver) (x : List ℚ) (order : Option Nat) :
    Except ArimaError (List ℚ) :=
  match acf x (match order with | some o => some (o + 1) | none => none) false with
  | Except.ok rho => ar_coef_rho s rho order
  | Except.error e => Except.error e

/-- `var_phi_rho_cov` from src/acf.rs: `assert!(rho.len() > phi.len())`
(a failed assertion panics), then `Ok(cov0 * (1 - Σ phi[i] * rho[i+1]))`. -/
def var_phi_rho_cov (phi rho : List ℚ) (cov0 : ℚ) : RustOutcome ArimaError ℚ :=
  if phi.length < rho.length then
    RustOutcome.ok (cov0 * (1 -
      (List.range phi.length).foldl (fun s i => s + phi.getD i 0 * rho.getD (i + 1) 0) 0))
  else RustOutcome.panicked

/-- `var` from src/acf.rs: compute rho, then `ar_coef_rho(..).unwrap()` —
an `Err` from the solve PANICS here rather than being returned — then the
lag-0 autocovariance, then `var_phi_rho_cov`. -/
def var (s : Solver) (x : List ℚ) (order : Option Nat) : RustOutcome ArimaError ℚ :=
  let max_lag := match order with
    | some o => some (o + 1)
    | none => none
  let rho := acfV x max_lag false
  match ar_coef_rho s rho order with
  | Except.error _ => RustOutcome.panicked
  | Except.ok phi =>
      let cov0 := (acfV x (some 0) true).getD 0 0
      var_phi_rho_cov phi rho cov0

/-- Value pushed by the `pacf_rho` loop at order `i` when the solve
succeeds: the last element, index `i - 1`, of the order-`i` solution. -/
def pacfEntry (s : Solver) (rho : List ℚ) (i : Nat) : ℚ :=
  match ar_coef_rho s rho (some i) with
  | Except.ok coef => coef.getD (i - 1) 0
  | Except.error _ => 0

/-- The `for i in 1..m` loop of `pacf_rho` over the remaining orders:
push `coef[i-1]` on success, return `Err(ArimaError)` on the first
failure. -/
def pacfLoop (s : Solver) (rho : List ℚ) :
    List ℚ → List Nat → Except ArimaError (List ℚ)
  | y, [] => Except.ok y
  | y, i :: rest =>
    match ar_coef_rho s rho (some i) with
    | Except.ok coef => pacfLoop s rho (y ++ [coef.getD (i - 1) 0]) rest
    | Except.error _ => Except.error ArimaError.solveFailure

/-- `pacf_rho` from src/acf.rs: clamp `max_lag` to `rho.len() - 1` and run
the order loop over `1..=max_lag`. -/
def pacf_rho (s : Solver) (rho : List ℚ) (max_lag : Option Nat) :
    Except ArimaError (List ℚ) :=
  let maxLag := clampIdx (rho.length - 1) max_lag
  pacfLoop s rho [] (List.range' 1 maxLag)

/-- Dot product of two rational vectors, used to say that a candidate
vector solves a linear system row by row. -/
def dotL (u v : List ℚ) : ℚ :=
  ((u.zip v).map (fun p => p.1 * p.2)).sum

/-- The solver succeeds on the system `(M, b)` and its answer actually
solves it: it returns some vector of the right length whose dot product
with every row of `M` reproduces `b`. -/
def SolvesSystem (s : Solver) (M : List (List ℚ)) (b : List ℚ) : Prop :=
  ∃ sol, s M b = some sol ∧ sol.length = b.length ∧
    ∀ i ∈ List.range b.length, dotL (M.getD i []) sol = b.getD i 0

/-- Value held at index `j` of the `acf` loop vector after the loop, before
the final correlation-mode overwrite of index 0. -/
def acfRaw (x : List ℚ) (covariance : Bool) (j : Nat) : ℚ :=
  if covariance = false ∧ 0 < j then covAt x j / covAt x 0 else covAt x j

/-- Success test for a Rust `Result` value of the embedding. -/
def isOkE {ε α : Type} : Except ε α → Bool
  | Except.ok _ => true
  | Except.error _ => false

/-- Concrete solver for tests: echoes the right-hand side back as the
solution (so it succeeds on every system, with a length-matching answer). -/
def echoSolver : Solver := fun _ b => some b

/-- Concrete solver for tests: always reports a non-zero status. -/
def failSolver : Solver := fun _ _ => none

section Helpers

lemma getD_replicate_zero (m j : Nat) : (List.replicate m (0 : ℚ)).getD j 0 = 0 := by
  induction m generalizing j with
  | zero => simp [List.getD]
  | succ m ih =>
    cases j with
    | zero => simp [List.replicate]
    | succ j => simp [List.replicate]

lemma getD_set_self {α : Type} (l : List α) (i : Nat) (v d : α) (h : i < l.length) :
    (l.set i v).getD i d = v := by
  induction l generalizing i with
  | nil => simp at h
  | cons a t ih =>
    cases i with
    | zero => simp
    | succ i => simpa using ih i (by simp at h; omega)

lemma getD_set_ne {α : Type} (l : List α) (i j : Nat) (v d : α) (h : i ≠ j) :
    (l.set i v).getD j d = l.getD j d := by
  induction l generalizing i j with
  | nil => simp
  | cons a t ih =>
    cases i with
    | zero =>
      cases j with
      | zero => exact absurd rfl h
      | succ j => simp
    | succ i =>
      cases j with
      | zero => simp
      | succ j => simpa using ih i j (fun hc => h (by simp [hc]))

lemma getD_range_map {α : Type} (f : Nat → α) (n i : Nat) (d : α) (h : i < n) :
    ((List.range n).map f).getD i d = f i := by
  rw [List.getD_eq_getElem?_getD, List.getElem?_map, List.getElem?_range h]
  rfl

lemma getD_lt {α : Type} (x : List α) (i : Nat) (d : α) (h : i < x.length) :
    x.getD i d = x.get ⟨i, h⟩ := by
  rw [List.getD_eq_getElem?_getD, List.getElem?_eq_getElem h]
  rfl

lemma foldl_add_div (g : Nat → ℚ) (c : ℚ) (l : List Nat) (a : ℚ) :
    l.foldl (fun acc i => acc + g i / c) a = a + (l.map g).sum / c := by
  induction l generalizing a with
  | nil => simp
  | cons i r ih =>
    rw [List.foldl_cons, ih, List.map_cons, List.sum_cons]
    ring

lemma foldl_add_mul (g : Nat → ℚ) (l : List Nat) (a : ℚ) :
    l.foldl (fun acc i => acc + g i) a = a + (l.map g).sum := by
  induction l generalizing a with
  | nil => simp
  | cons i r ih =>
    rw [List.foldl_cons, ih, List.map_cons, List.sum_cons]
    ring

lemma covAt_eq_centeredSum (x : List ℚ) (t : Nat) :
    covAt x t = centeredSum x t / (x.length : ℚ) := by
  have h := foldl_add_div
    (fun i => (x.getD i 0 - mean x) * (x.getD (i + t) 0 - mean x))
    ((x.length : ℚ)) (List.range (x.length - t)) 0
  simpa [covAt, centeredSum] using h

lemma acfLoop_invariant (x : List ℚ) (c : Bool) (m k : Nat) (hk : k ≤ m) :
    ((List.range k).foldl (acfStep x c) (List.replicate m 0)).length = m ∧
    ∀ j, j < m →
      ((List.range k).foldl (acfStep x c) (List.replicate m 0)).getD j 0 =
        if j < k then acfRaw x c j else 0 := by
  induction k with
  | zero =>
    refine ⟨by simp, fun j hj => ?_⟩
    simp [getD_replicate_zero]
  | succ k ih =>
    have hk' : k ≤ m := Nat.le_of_succ_le hk
    obtain ⟨hlen, hval⟩ := ih hk'
    set L := (List.range k).foldl (acfStep x c) (List.replicate m 0) with hL
    have hfold : (List.range (k + 1)).foldl (acfStep x c) (List.replicate m 0)
        = acfStep x c L k := by
      rw [List.range_succ, List.foldl_append, List.foldl_cons, List.foldl_nil]
    have hkm : k < m := hk
    have hinit : L.getD k 0 = 0 := by
      rw [hval k hkm]
      simp
    have hyt :
        (List.range (x.length - k)).foldl
          (fun yt i =>
            yt + ((x.getD i 0 - mean x) * (x.getD (i + k) 0 - mean x)) / (x.length : ℚ))
          (L.getD k 0) = covAt x k := by
      rw [hinit]
      rfl
    have hstep : acfStep x c L k =
        if c = false ∧ 0 < k then L.set k (covAt x k / L.getD 0 0)
        else L.set k (covAt x k) := by
      simp only [acfStep]
      rw [hyt]
    have hsetval : acfStep x c L k = L.set k (acfRaw x c k) := by
      rw [hstep]
      by_cases hc : c = false ∧ 0 < k
      · rw [if_pos hc]
        have h0m : 0 < m := Nat.lt_of_le_of_lt (Nat.zero_le k) hkm
        have hL0 : L.getD 0 0 = covAt x 0 := by
          rw [hval 0 h0m, if_pos hc.2]
          simp [acfRaw]
        rw [hL0, acfRaw, if_pos hc]
      · rw [if_neg hc, acfRaw, if_neg hc]
    rw [hfold, hsetval]
    refine ⟨by rw [List.length_set]; exact hlen, fun j hj => ?_⟩
    by_cases hjk : j = k
    · subst hjk
      rw [getD_set_self _ _ _ _ (by rw [hlen]; exact hkm)]
      rw [if_pos (Nat.lt_succ_self j)]
    · rw [getD_set_ne _ _ _ _ _ (fun h => hjk h.symm), hval j hj]
      by_cases hjk2 : j < k
      · rw [if_pos hjk2, if_pos (Nat.lt_succ_of_lt hjk2)]
      · rw [if_neg hjk2, if_neg (by omega)]

lemma acfLoop_length (x : List ℚ) (c : Bool) (m : Nat) : (acfLoop x c m).length = m :=
  (acfLoop_invariant x c m m (Nat.le_refl m)).1

lemma acfLoop_getD (x : List ℚ) (c : Bool) (m j : Nat) (hj : j < m) :
    (acfLoop x c m).getD j 0 = acfRaw x c j := by
  have h := (acfLoop_invariant x c m m (Nat.le_refl m)).2 j hj
  rwa [if_pos hj] at h

lemma acfV_length (x : List ℚ) (ml : Option Nat) (c : Bool) :
    (acfV x ml c).length = clampIdx (x.length - 1) ml + 1 := by
  unfold acfV
  by_cases hc : c = false
  · rw [if_pos hc, List.length_set, acfLoop_length]
  · rw [if_neg hc, acfLoop_length]

lemma acfV_true_getD (x : List ℚ) (ml : Option Nat) (t : Nat)
    (ht : t < clampIdx (x.length - 1) ml + 1) :
    (acfV x ml true).getD t 0 = covAt x t := by
  unfold acfV
  rw [if_neg (by simp), acfLoop_getD _ _ _ _ ht, acfRaw, if_neg (by simp)]

lemma acfV_false_getD_zero (x : List ℚ) (ml : Option Nat) :
    (acfV x ml false).getD 0 0 = 1 := by
  unfold acfV
  rw [if_pos rfl]
  exact getD_set_self _ _ _ _ (by rw [acfLoop_length]; omega)

lemma acfV_false_getD (x : List ℚ) (ml : Option Nat) (t : Nat) (ht0 : 0 < t)
    (ht : t < clampIdx (x.length - 1) ml + 1) :
    (acfV x ml false).getD t 0 = covAt x t / covAt x 0 := by
  unfold acfV
  rw [if_pos rfl, getD_set_ne _ _ _ _ _ (by omega), acfLoop_getD _ _ _ _ ht,
    acfRaw, if_pos ⟨rfl, ht0⟩]

lemma range_map_getD (x : List ℚ) (g : ℚ → ℚ) :
    (List.range x.length).map (fun i => g (x.getD i 0)) = x.map g := by
  apply List.ext_getElem
  · simp
  · intro i h1 h2
    simp only [List.getElem_map, List.getElem_range]
    rw [getD_lt x i 0 (by simpa using h2)]
    simp

lemma centeredSum_zero (x : List ℚ) :
    centeredSum x 0 = (x.map (fun xi => (xi - mean x) * (xi - mean x))).sum := by
  unfold centeredSum
  simp only [Nat.sub_zero, Nat.add_zero]
  rw [range_map_getD x (fun xi => (xi - mean x) * (xi - mean x))]

lemma covAtChk_aux (x : List ℚ) (t : Nat) (l : List Nat)
    (hl : ∀ i ∈ l, i + t < x.length) (a : ℚ) :
    l.foldlM
      (fun yt i =>
        match x[i]?, x[i + t]? with
        | some xi, some xit => some (yt + ((xi - mean x) * (xit - mean x)) / (x.length : ℚ))
        | _, _ => none)
      a =
    some (l.foldl
      (fun yt i =>
        yt + ((x.getD i 0 - mean x) * (x.getD (i + t) 0 - mean x)) / (x.length : ℚ))
      a) := by
  induction l generalizing a with
  | nil => rfl
  | cons i r ih =>
    have hi : i + t < x.length := hl i (List.mem_cons_self i r)
    have hi1 : i < x.length := by omega
    rw [List.foldlM_cons, List.foldl_cons]
    rw [List.getElem?_eq_getElem hi1, List.getElem?_eq_getElem hi]
    rw [getD_lt x i 0 hi1, getD_lt x (i + t) 0 hi]
    simpa using ih (fun j hj => hl j (List.mem_cons_of_mem i hj)) _

lemma covAtChk_eq (x : List ℚ) (t : Nat) : covAtChk x t = some (covAt x t) := by
  unfold covAtChk covAt
  exact covAtChk_aux x t (List.range (x.length - t))
    (fun i hi => by rw [List.mem_range] at hi; omega) 0

lemma pacfLoop_ok (s : Solver) (rho : List ℚ) (l : List Nat) (y : List ℚ)
    (h : ∀ i ∈ l, isOkE (ar_coef_rho s rho (some i)) = true) :
    pacfLoop s rho y l = Except.ok (y ++ l.map (pacfEntry s rho)) := by
  induction l generalizing y with
  | nil => simp [pacfLoop]
  | cons i r ih =>
    have hi := h i (List.mem_cons_self i r)
    cases har : ar_coef_rho s rho (some i) with
    | error e => rw [har] at hi; simp [isOkE] at hi
    | ok coef =>
      have he : pacfEntry s rho i = coef.getD (i - 1) 0 := by
        simp [pacfEntry, har]
      simp only [pacfLoop, har]
      rw [ih _ (fun j hj => h j (List.mem_cons_of_mem i hj)), List.map_cons, he]
      simp

lemma pacfLoop_err (s : Solver) (rho : List ℚ) (l : List Nat) (y : List ℚ)
    (h : ∃ i ∈ l, isOkE (ar_coef_rho s rho (some i)) = false) :
    pacfLoop s rho y l = Except.error ArimaError.solveFailure := by
  induction l generalizing y with
  | nil => obtain ⟨i, hi, _⟩ := h; simp at hi
  | cons i r ih =>
    cases har : ar_coef_rho s rho (some i) with
    | error e => simp [pacfLoop, har]
    | ok coef =>
      simp only [pacfLoop, har]
      apply ih
      obtain ⟨j, hj, hjf⟩ := h
      rcases List.mem_cons.mp hj with hji | hjr
      · subst hji; rw [har] at hjf; simp [isOkE] at hjf
      · exact ⟨j, hjr, hjf⟩

lemma getD_range'_map (f : Nat → ℚ) (st n i : Nat) (h : i < n) :
    ((List.range' st n).map f).getD i 0 = f (st + i) := by
  have hlen : i < (List.range' st n).length := by simpa using h
  rw [List.getD_eq_getElem?_getD, List.getElem?_map, List.getElem?_eq_getElem hlen]
  simp [List.getElem_range']

lemma mrBuf_getD (rho : List ℚ) (n i j : Nat) (hi : i < n) (hj : j < n) :
    (mrBuf rho n).getD (i * n + j) 0 = if i < j then rho.getD (j - i) 0 else 1 := by
  unfold mrBuf
  have hk : i * n + j < n * n := by
    calc i * n + j < i * n + n := by omega
    _ = (i + 1) * n := by ring
    _ ≤ n * n := Nat.mul_le_mul_right n hi
  rw [getD_range_map _ _ _ _ hk]
  have h2 : i * n + j = j + n * i := by ring
  rw [h2, Nat.add_mul_div_left _ _ (show 0 < n by omega), Nat.div_eq_of_lt hj,
    Nat.add_mul_mod_self_left, Nat.mod_eq_of_lt hj]
  simp

lemma dposvL_getD (rho : List ℚ) (n i j : Nat) (hi : i < n) (hj : j < n) :
    ((dposvL (mrBuf rho n) n).getD i []).getD j 0 =
      if i = j then 1 else rho.getD (max i j - min i j) 0 := by
  unfold dposvL
  rw [getD_range_map _ _ _ _ hi, getD_range_map _ _ _ _ hj]
  by_cases hji : j ≤ i
  · rw [if_pos hji, mrBuf_getD rho n j i hj hi]
    by_cases hij : i = j
    · subst hij
      rw [if_neg (lt_irrefl i), if_pos rfl]
    · have hlt : j < i := by omega
      rw [if_pos hlt, if_neg hij]
      congr 1
      omega
  · rw [if_neg hji, mrBuf_getD rho n i j hi hj]
    have hij : i < j := by omega
    rw [if_pos hij, if_neg (by omega)]
    congr 1
    omega

lemma bVec_getD (rho : List ℚ) (n i : Nat) (h : i < n) :
    (bVec rho n).getD i 0 = rho.getD (i + 1) 0 := by
  unfold bVec
  exact getD_range_map _ _ _ _ h

lemma range_map_getD_self (sol : List ℚ) (n : Nat) (h : sol.length = n) :
    (List.range n).map (fun i => sol.getD i 0) = sol := by
  apply List.ext_getElem
  · simp [h]
  · intro i h1 h2
    simp only [List.getElem_map, List.getElem_range]
    rw [getD_lt sol i 0 h2]
    simp

end Helpers

/-- C1: the claim states that when the order-clamped Yule-Walker solve
fails, `var` returns the `SolveFailure` error to its caller as an `Err`
value and does not turn it into a panic.  The source instead calls
`ar_coef_rho(&rho, order).unwrap()` (src/acf.rs line 201), so a failed
solve panics; this theorem evaluates the embedding at such an input and
shows the outcome is the panic, not an `Err` return. -/
theorem C1_var_panics_on_solve_failure :
    var failSolver [1, 2, 3] (some 1) = RustOutcome.panicked := rfl

/-- C7: the raw-series entry point `ar_coef` agrees value for value with
first computing the correlations via `acf` with the corresponding
`max_lag` (order + 1) in correlation mode and then calling `ar_coef_rho`
on them with the same order, for every solver, series and order. -/
theorem C7_ar_coef_entry_points_agree (s : Solver) (x : List ℚ) (order : Option Nat) :
    ar_coef s x order = ar_coef_twoStep s x order := rfl

/-- C10: on the constant series `[1, 1]` the lag-0 autocovariance is
exactly zero, so the correlation-mode normalization `y[t] / y[0]` divides
by zero: the guarded-division instrumentation `acfGuard` of the same loop
reaches its error branch, while `acf` itself reports no error and returns
a value. -/
theorem C10_constant_series_division_by_zero :
    covAt [1, 1] 0 = 0 ∧
    acfGuard [1, 1] none false = none ∧
    acf [1, 1] none false = Except.ok (acfV [1, 1] none false) ∧
    acfV [1, 1] none false = [1, 0] :=
  ⟨by norm_num [covAt, mean, List.range_succ],
   by norm_num [acfGuard, acfStepG, clampIdx, mean, List.range_succ, List.replicate],
   rfl,
   by norm_num [acfV, acfLoop, acfStep, clampIdx, mean, List.range_succ, List.replicate]⟩

/-- C2: for a correlation vector of length at least 2, `ar_coef_rho` clamps
the order to `n = min(order, len(rho) - 1)` (default `len(rho) - 1`),
builds exactly the `n × n` symmetric system with unit diagonal and
`M[i][j] = rho[|i-j|]` off it together with `b[i] = rho[i+1]`, hands it to
the solver, and returns `Ok` of the solver's length-`n` solution exactly
when the solver succeeds and `Err(SolveFailure)` exactly when it reports a
non-zero status. -/
theorem C2_ar_coef_rho_system_and_result (s : Solver) (rho : List ℚ)
    (order : Option Nat) (n : Nat) (h2 : 2 ≤ rho.length)
    (hn : n = clampIdx (rho.length - 1) order) :
    (dposvL (mrBuf rho n) n).length = n ∧
    (∀ i, i < n → ((dposvL (mrBuf rho n) n).getD i []).length = n) ∧
    (∀ i, i < n → ((dposvL (mrBuf rho n) n).getD i []).getD i 0 = 1) ∧
    (∀ i j, i < n → j < n → i ≠ j →
      ((dposvL (mrBuf rho n) n).getD i []).getD j 0 = rho.getD (max i j - min i j) 0) ∧
    (bVec rho n).length = n ∧
    (∀ i, i < n → (bVec rho n).getD i 0 = rho.getD (i + 1) 0) ∧
    (∀ sol, s (dposvL (mrBuf rho n) n) (bVec rho n) = some sol →
      ∃ phi, ar_coef_rho s rho order = Except.ok phi ∧ phi.length = n ∧
        (sol.length = n → phi = sol)) ∧
    (s (dposvL (mrBuf rho n) n) (bVec rho n) = none →
      ar_coef_rho s rho order = Except.error ArimaError.solveFailure) := by
  refine ⟨by simp [dposvL], ?_, ?_, ?_, by simp [bVec], ?_, ?_, ?_⟩
  · intro i hi
    unfold dposvL
    rw [getD_range_map _ _ _ _ hi]
    simp
  · intro i hi
    rw [dposvL_getD rho n i i hi hi, if_pos rfl]
  · intro i j hi hj hij
    rw [dposvL_getD rho n i j hi hj, if_neg hij]
  · intro i hi
    exact bVec_getD rho n i hi
  · intro sol hsol
    refine ⟨(List.range n).map (fun i => sol.getD i 0), ?_, by simp, ?_⟩
    · simp only [ar_coef_rho, ← hn]
      rw [hsol]
    · intro hlen
      exact range_map_getD_self sol n hlen
  · intro hnone
    simp only [ar_coef_rho, ← hn]
    rw [hnone]

/-- C2 witness: the theorem applied at `rho = [1, 1/2, 1/4]`, order 2 and
the echo solver, with its hypotheses discharged concretely. -/
theorem C2_ar_coef_rho_system_and_result_witness :
    (dposvL (mrBuf [1, (1:ℚ)/2, (1:ℚ)/4] 2) 2).length = 2 ∧
    (∀ i, i < 2 → ((dposvL (mrBuf [1, (1:ℚ)/2, (1:ℚ)/4] 2) 2).getD i []).length = 2) ∧
    (∀ i, i < 2 → ((dposvL (mrBuf [1, (1:ℚ)/2, (1:ℚ)/4] 2) 2).getD i []).getD i 0 = 1) ∧
    (∀ i j, i < 2 → j < 2 → i ≠ j →
      ((dposvL (mrBuf [1, (1:ℚ)/2, (1:ℚ)/4] 2) 2).getD i []).getD j 0 =
        ([1, (1:ℚ)/2, (1:ℚ)/4] : List ℚ).getD (max i j - min i j) 0) ∧
    (bVec [1, (1:ℚ)/2, (1:ℚ)/4] 2).length = 2 ∧
    (∀ i, i < 2 → (bVec [1, (1:ℚ)/2, (1:ℚ)/4] 2).getD i 0 =
      ([1, (1:ℚ)/2, (1:ℚ)/4] : List ℚ).getD (i + 1) 0) ∧
    (∀ sol, echoSolver (dposvL (mrBuf [1, (1:ℚ)/2, (1:ℚ)/4] 2) 2)
        (bVec [1, (1:ℚ)/2, (1:ℚ)/4] 2) = some sol →
      ∃ phi, ar_coef_rho echoSolver [1, (1:ℚ)/2, (1:ℚ)/4] (some 2) = Except.ok phi ∧
        phi.length = 2 ∧ (sol.length = 2 → phi = sol)) ∧
    (echoSolver (dposvL (mrBuf [1, (1:ℚ)/2, (1:ℚ)/4] 2) 2)
        (bVec [1, (1:ℚ)/2, (1:ℚ)/4] 2) = none →
      ar_coef_rho echoSolver [1, (1:ℚ)/2, (1:ℚ)/4] (some 2) =
        Except.error ArimaError.solveFailure) :=
  C2_ar_coef_rho_system_and_result echoSolver [1, (1:ℚ)/2, (1:ℚ)/4] (some 2) 2
    (by simp) (by simp [clampIdx])

/-- C3: in correlation mode `acf` returns a vector whose entry 0 is
exactly 1, and whose entry at each lag `t > 0` is the lag-`t` mean-centered
autocovariance divided by the raw lag-0 autocovariance of the same pass —
the normalization uses the raw lag-0 value, and only afterwards is entry 0
overwritten with 1. -/
theorem C3_acf_correlation_mode (x : List ℚ) (ml : Option Nat) (h : x ≠ []) :
    acf x ml false = Except.ok (acfV x ml false) ∧
    (acfV x ml false).length = clampIdx (x.length - 1) ml + 1 ∧
    (acfV x ml false).getD 0 0 = 1 ∧
    (∀ t, 0 < t → t ≤ clampIdx (x.length - 1) ml →
      (acfV x ml false).getD t 0 =
        (centeredSum x t / (x.length : ℚ)) / (centeredSum x 0 / (x.length : ℚ))) := by
  refine ⟨rfl, acfV_length x ml false, acfV_false_getD_zero x ml, fun t ht0 ht => ?_⟩
  rw [acfV_false_getD x ml t ht0 (by omega), covAt_eq_centeredSum, covAt_eq_centeredSum]

/-- C3 witness: the theorem applied to the series `[1, 2, 4]` with the
default maximum lag. -/
theorem C3_acf_correlation_mode_witness :
    acf [1, 2, 4] none false = Except.ok (acfV [1, 2, 4] none false) ∧
    (acfV [1, 2, 4] none false).length =
      clampIdx (([1, 2, 4] : List ℚ).length - 1) none + 1 ∧
    (acfV [1, 2, 4] none false).getD 0 0 = 1 ∧
    (∀ t, 0 < t → t ≤ clampIdx (([1, 2, 4] : List ℚ).length - 1) none →
      (acfV [1, 2, 4] none false).getD t 0 =
        (centeredSum [1, 2, 4] t / (([1, 2, 4] : List ℚ).length : ℚ)) /
          (centeredSum [1, 2, 4] 0 / (([1, 2, 4] : List ℚ).length : ℚ))) :=
  C3_acf_correlation_mode [1, 2, 4] none (by simp)

/-- C4: in covariance mode `acf` returns at index `t` the sum of the
mean-centered lagged products over `i ∈ [0, n - t)` divided by `n` (the
biased estimator); in particular the lag-0 entry is the population
variance of the series. -/
theorem C4_acf_covariance_mode (x : List ℚ) (ml : Option Nat) (t : Nat)
    (h : x ≠ []) (ht : t ≤ clampIdx (x.length - 1) ml) :
    acf x ml true = Except.ok (acfV x ml true) ∧
    (acfV x ml true).getD t 0 = centeredSum x t / (x.length : ℚ) ∧
    (acfV x ml true).getD 0 0 =
      (x.map (fun xi => (xi - mean x) * (xi - mean x))).sum / (x.length : ℚ) := by
  refine ⟨rfl, ?_, ?_⟩
  · rw [acfV_true_getD x ml t (by omega), covAt_eq_centeredSum]
  · rw [acfV_true_getD x ml 0 (by omega), covAt_eq_centeredSum, centeredSum_zero]

/-- C4 witness: the theorem applied to the series `[1, 2, 4]` at lag 1
with the default maximum lag. -/
theorem C4_acf_covariance_mode_witness :
    acf [1, 2, 4] none true = Except.ok (acfV [1, 2, 4] none true) ∧
    (acfV [1, 2, 4] none true).getD 1 0 =
      centeredSum [1, 2, 4] 1 / (([1, 2, 4] : List ℚ).length : ℚ) ∧
    (acfV [1, 2, 4] none true).getD 0 0 =
      (([1, 2, 4] : List ℚ).map
        (fun xi => (xi - mean [1, 2, 4]) * (xi - mean [1, 2, 4]))).sum /
        (([1, 2, 4] : List ℚ).length : ℚ) :=
  C4_acf_covariance_mode [1, 2, 4] none 1 (by simp) (by simp [clampIdx])

/-- C5: with the maximum lag clamped to `len(rho) - 1` (default the same),
`pacf_rho` runs one `ar_coef_rho` solve per order `i = 1..max_lag`; when
every solve succeeds it returns `Ok` of the vector of length `max_lag`
whose entry `i - 1` is the last element (index `i - 1`) of the order-`i`
solution, and when any order's solve fails it returns
`Err(SolveFailure)` with no partial result. -/
theorem C5_pacf_rho_per_order (s : Solver) (rho : List ℚ) (ml : Option Nat) :
    ((∀ i ∈ List.range' 1 (clampIdx (rho.length - 1) ml),
        isOkE (ar_coef_rho s rho (some i)) = true) →
      pacf_rho s rho ml =
        Except.ok ((List.range' 1 (clampIdx (rho.length - 1) ml)).map (pacfEntry s rho)) ∧
      ((List.range' 1 (clampIdx (rho.length - 1) ml)).map (pacfEntry s rho)).length =
        clampIdx (rho.length - 1) ml ∧
      (∀ i, 1 ≤ i → i ≤ clampIdx (rho.length - 1) ml →
        ∀ c, ar_coef_rho s rho (some i) = Except.ok c →
          ((List.range' 1 (clampIdx (rho.length - 1) ml)).map
            (pacfEntry s rho)).getD (i - 1) 0 = c.getD (i - 1) 0)) ∧
    ((∃ i ∈ List.range' 1 (clampIdx (rho.length - 1) ml),
        isOkE (ar_coef_rho s rho (some i)) = false) →
      pacf_rho s rho ml = Except.error ArimaError.solveFailure) := by
  constructor
  · intro h
    refine ⟨?_, by simp, ?_⟩
    · simp only [pacf_rho]
      rw [pacfLoop_ok s rho _ [] h]
      simp
    · intro i h1 h2 c hc
      rw [getD_range'_map (pacfEntry s rho) 1 (clampIdx (rho.length - 1) ml) (i - 1)
        (by omega)]
      have hi : 1 + (i - 1) = i := by omega
      rw [hi]
      simp [pacfEntry, hc]
  · intro h
    simp only [pacf_rho]
    exact pacfLoop_err s rho _ [] h

/-- C5 witness: the theorem applied at `rho = [1, 1/2, 1/4]` with the
default maximum lag, once with the echo solver (all orders succeed) and
once with the failing solver (every order fails). -/
theorem C5_pacf_rho_per_order_witness :
    pacf_rho echoSolver [1, (1:ℚ)/2, (1:ℚ)/4] none =
      Except.ok ((List.range' 1
        (clampIdx (([1, (1:ℚ)/2, (1:ℚ)/4] : List ℚ).length - 1) none)).map
          (pacfEntry echoSolver [1, (1:ℚ)/2, (1:ℚ)/4])) ∧
    pacf_rho failSolver [1, (1:ℚ)/2, (1:ℚ)/4] none =
      Except.error ArimaError.solveFailure :=
  ⟨((C5_pacf_rho_per_order echoSolver [1, (1:ℚ)/2, (1:ℚ)/4] none).1
      (by decide)).1,
   (C5_pacf_rho_per_order failSolver [1, (1:ℚ)/2, (1:ℚ)/4] none).2
      (by decide)⟩

/-- C6: `var_phi_rho_cov` returns `Ok` of exactly
`cov0 * (1 - Σ phi[i] * rho[i+1])` whenever `rho` is longer than `phi`,
and when `len(rho) ≤ len(phi)` it fails its explicit `assert!`
precondition check (a panic), producing no value. -/
theorem C6_var_phi_rho_cov_formula (phi rho : List ℚ) (cov0 : ℚ) :
    (phi.length < rho.length →
      var_phi_rho_cov phi rho cov0 = RustOutcome.ok (cov0 * (1 -
        ((List.range phi.length).map
          (fun i => phi.getD i 0 * rho.getD (i + 1) 0)).sum))) ∧
    (rho.length ≤ phi.length →
      var_phi_rho_cov phi rho cov0 = RustOutcome.panicked) := by
  constructor
  · intro h
    unfold var_phi_rho_cov
    rw [if_pos h]
    have hsum := foldl_add_mul (fun i => phi.getD i 0 * rho.getD (i + 1) 0)
      (List.range phi.length) 0
    rw [hsum, zero_add]
  · intro h
    unfold var_phi_rho_cov
    rw [if_neg (by omega)]

/-- C6 witness: the theorem applied once with `rho` longer than `phi`
(the formula case) and once with `rho` too short (the panic case). -/
theorem C6_var_phi_rho_cov_formula_witness :
    var_phi_rho_cov [(1:ℚ)/2] [1, (1:ℚ)/2] 3 = RustOutcome.ok (3 * (1 -
      ((List.range ([(1:ℚ)/2] : List ℚ).length).map
        (fun i => ([(1:ℚ)/2] : List ℚ).getD i 0 *
          ([1, (1:ℚ)/2] : List ℚ).getD (i + 1) 0)).sum)) ∧
    var_phi_rho_cov [(1:ℚ)/2, (1:ℚ)/4] [1] 3 = RustOutcome.panicked :=
  ⟨(C6_var_phi_rho_cov_formula [(1:ℚ)/2] [1, (1:ℚ)/2] 3).1 (by decide),
   (C6_var_phi_rho_cov_formula [(1:ℚ)/2, (1:ℚ)/4] [1] 3).2 (by decide)⟩

/-- C8: when the requested maximum lag exceeds `n - 1` for a non-empty
series of length `n`, `acf` clamps it to `n - 1`, returns `Ok` of a vector
of length `n`, and every index into the series stays in bounds: the
fully checked-access inner accumulation succeeds at every computed lag and
agrees with the unchecked one. -/
theorem C8_acf_clamps_and_stays_in_bounds (x : List ℚ) (max_lag : Nat)
    (covariance : Bool) (h1 : x ≠ []) (h2 : x.length - 1 < max_lag) :
    clampIdx (x.length - 1) (some max_lag) = x.length - 1 ∧
    acf x (some max_lag) covariance = Except.ok (acfV x (some max_lag) covariance) ∧
    (acfV x (some max_lag) covariance).length = x.length ∧
    (∀ t, t < x.length → covAtChk x t = some (covAt x t)) := by
  have hpos : 0 < x.length := List.length_pos.mpr h1
  refine ⟨?_, rfl, ?_, fun t _ => covAtChk_eq x t⟩
  · simp only [clampIdx]
    omega
  · rw [acfV_length]
    simp only [clampIdx]
    omega

/-- C8 witness: the theorem applied to the length-2 series `[1, 2]` with
the oversized request `max_lag = 5` in covariance mode. -/
theorem C8_acf_clamps_and_stays_in_bounds_witness :
    clampIdx (([1, 2] : List ℚ).length - 1) (some 5) = ([1, 2] : List ℚ).length - 1 ∧
    acf [1, 2] (some 5) true = Except.ok (acfV [1, 2] (some 5) true) ∧
    (acfV [1, 2] (some 5) true).length = ([1, 2] : List ℚ).length ∧
    (∀ t, t < ([1, 2] : List ℚ).length → covAtChk [1, 2] t = some (covAt [1, 2] t)) :=
  C8_acf_clamps_and_stays_in_bounds [1, 2] 5 true (by simp) (by simp)

/-- C9: for a correlation vector of length at least 2 and a solver whose
answer genuinely solves the order-1 Yule-Walker system, `pacf_rho` at
maximum lag 1 returns `Ok` of the one-element vector `[rho[1]]`: the
order-1 system is the `1 × 1` unit system `[[1]] * phi = [rho[1]]`, whose
solution is the lag-1 correlation. -/
theorem C9_pacf_rho_max_lag_one (s : Solver) (rho : List ℚ)
    (h2 : 2 ≤ rho.length)
    (hs : SolvesSystem s (dposvL (mrBuf rho 1) 1) (bVec rho 1)) :
    dposvL (mrBuf rho 1) 1 = [[1]] ∧
    bVec rho 1 = [rho.getD 1 0] ∧
    pacf_rho s rho (some 1) = Except.ok [rho.getD 1 0] := by
  have hM : dposvL (mrBuf rho 1) 1 = [[1]] := rfl
  have hb : bVec rho 1 = [rho.getD 1 0] := rfl
  refine ⟨hM, hb, ?_⟩
  obtain ⟨sol, hsol, hlen, hsolve⟩ := hs
  rw [hb] at hlen
  obtain ⟨a, rfl⟩ := List.length_eq_one.mp (by simpa using hlen)
  have hrow := hsolve 0 (by rw [hb]; simp)
  rw [hM, hb] at hrow
  have ha : a = rho.getD 1 0 := by
    simpa [dotL] using hrow
  subst ha
  have hclamp : clampIdx (rho.length - 1) (some 1) = 1 := by
    simp only [clampIdx]
    omega
  have har : ar_coef_rho s rho (some 1) = Except.ok [rho.getD 1 0] := by
    simp only [ar_coef_rho, hclamp]
    rw [hsol]
    rfl
  simp only [pacf_rho, hclamp]
  have hrange : List.range' 1 1 = [1] := rfl
  rw [hrange]
  simp only [pacfLoop, har]
  rfl

/-- C9 witness: the theorem applied at `rho = [1, 1/2]` with the echo
solver, whose answer `[1/2]` solves the unit system. -/
theorem C9_pacf_rho_max_lag_one_witness :
    dposvL (mrBuf [1, (1:ℚ)/2] 1) 1 = [[1]] ∧
    bVec [1, (1:ℚ)/2] 1 = [([1, (1:ℚ)/2] : List ℚ).getD 1 0] ∧
    pacf_rho echoSolver [1, (1:ℚ)/2] (some 1) =
      Except.ok [([1, (1:ℚ)/2] : List ℚ).getD 1 0] :=
  C9_pacf_rho_max_lag_one echoSolver [1, (1:ℚ)/2] (by simp)
    ⟨bVec [1, (1:ℚ)/2] 1, rfl, rfl, by
      intro i hi
      simp only [bVec, List.length_map, List.length_range, List.mem_range] at hi
      interval_cases i
      norm_num [dotL, dposvL, mrBuf, bVec, List.range_succ]⟩

end Arima
